import Mathlib

/-!
Verification of `src/persistent_list_map.rs` from ClojureRS: a persistent
map implemented as a singly linked chain of key-value entries, with
structural sharing via `Rc`.

Two embeddings are used:

* a pure value-level model (`PersistentListMap`) where `Rc` indirection is
  erased: this captures `get`, `assoc`, the shadow-suppressing iterator,
  the builder (`FromIterator`), derived structural equality, and `Display`;
* an explicit heap model (`Cell` / `Heap`) where an `Rc<PersistentListMap>`
  is an address into a list of allocated cells: this captures allocation,
  reference identity and frame properties (`Rc::new` appends a fresh cell,
  `Rc::clone` reuses an address, derived `Clone` on the enum copies the
  cell value shallowly).
-/

/-- Modelled from the spec: the opaque key/value element type `Value`
(defined in `value.rs`, which is not part of the given sources).  The spec
requires only value-equality, a consistent hash, and the distinguished
absent sentinel `Value::Nil`; a few concrete constructors mirror the
values used by the repository's own test (symbols, integers, strings). -/
inductive Value where
  | Nil : Value
  | Symbol (name : String) : Value
  | I32 (n : Int) : Value
  | Str (s : String) : Value
deriving DecidableEq, Repr

/-- Modelled from the spec: `MapEntry` (defined in `maps.rs`, not part of
the given sources) is a key-value pair of `Value`s. -/
structure MapEntry where
  key : Value
  val : Value
deriving DecidableEq, Repr

/-- The chain: `enum PersistentListMap { Map(Rc<PersistentListMap>, MapEntry), Empty }`,
with the `Rc` indirection erased (value-level model).  Lean's structural
equality on this type coincides with the derived `PartialEq`, which
compares `Rc`s by their pointees. -/
inductive PersistentListMap where
  | Map (parent : PersistentListMap) (entry : MapEntry) : PersistentListMap
  | Empty : PersistentListMap
deriving DecidableEq, Repr

namespace PersistentListMap

/-- Transcription of `IPersistentListMap::get` for `PersistentListMap`:
walk from the head; at each node, if the entry's key equals the target,
return its value; on reaching `Empty`, return `Value::Nil`. -/
def get : PersistentListMap → Value → Value
  | Map parent entry, key => if entry.key = key then entry.val else parent.get key
  | Empty, _ => Value.Nil

/-- Transcription of `IPersistentListMap::assoc` for `PersistentListMap`:
wrap the existing map as the parent of one new node carrying the entry. -/
def assoc (m : PersistentListMap) (key val : Value) : PersistentListMap :=
  Map m (MapEntry.mk key val)

/-- Whether `key` occurs in some entry of the chain (shadowed or not). -/
def keyOccurs : PersistentListMap → Value → Bool
  | Map parent entry, key => entry.key = key || parent.keyOccurs key
  | Empty, _ => false

/-- Number of nodes in the chain (shadowed entries included). -/
def size : PersistentListMap → Nat
  | Map parent _ => parent.size + 1
  | Empty => 0

/-- The full node sequence of the chain, head to `Empty`, shadowed
duplicates included.  Derived structural equality compares exactly this
sequence. -/
def entries : PersistentListMap → List MapEntry
  | Map parent entry => entry :: parent.entries
  | Empty => []

/-- Transcription of `Iterator for PersistentListMapIter::next`, unfolded
to the whole sequence it yields: the iterator state is the current node
plus the set of keys already seen (`HashMap<Rc<Value>, bool>`, modelled as
a list of keys with membership up to value equality); a node whose key was
already seen is skipped, otherwise its key is recorded and the entry
yielded; `Empty` ends the sequence. -/
def iterGo : PersistentListMap → List Value → List MapEntry
  | Empty, _ => []
  | Map parent entry, seen =>
    if entry.key ∈ seen then iterGo parent seen
    else entry :: iterGo parent (entry.key :: seen)

/-- The full output of a fresh iterator over the chain
(`ToPersistentListMapIter::iter` starts with an empty seen set). -/
def toList (m : PersistentListMap) : List MapEntry :=
  iterGo m []

/-- One call to `PersistentListMapIter::next`: either `none` (the node is
`Empty`) or the yielded entry together with the successor iterator state.
The source's `next` recurses past already-seen keys, moving `self.node`
to the parent each time. -/
def iterNext : PersistentListMap → List Value → Option (MapEntry × PersistentListMap × List Value)
  | Empty, _ => none
  | Map parent entry, seen =>
    if entry.key ∈ seen then iterNext parent seen
    else some (entry, parent, entry.key :: seen)

/-- Driving the iterator by repeated `next` calls, with an explicit budget
of calls; used to state that `size` many calls always exhaust it. -/
def runIter : Nat → PersistentListMap → List Value → List MapEntry
  | 0, _, _ => []
  | fuel + 1, m, seen =>
    match iterNext m seen with
    | none => []
    | some (entry, m', seen') => entry :: runIter fuel m' seen'

/-- Transcription of `FromIterator<MapEntry> for PersistentListMap`:
fold the sequence left to right, wrapping the running map as the parent
of a new node for each entry. -/
def fromList (l : List MapEntry) : PersistentListMap :=
  l.foldl (fun acc e => Map acc e) Empty

end PersistentListMap

/-- Claim statements try-out examples use these concrete values. -/
def symA : Value := Value.Symbol "a"

def symB : Value := Value.Symbol "b"

def symC : Value := Value.Symbol "c"

/-- Heap cell: a `PersistentListMap` enum value as it sits in memory, with
the parent `Rc<PersistentListMap>` represented by the address (index) of
the heap cell it points to. -/
inductive Cell where
  | Map (parent : Nat) (entry : MapEntry) : Cell
  | Empty : Cell
deriving DecidableEq, Repr

/-- Heap of `Rc`-allocated cells: `Rc::new` appends a cell and returns its
index; `Rc::clone` returns the same index; the derived `Clone` of the enum
copies a cell value shallowly (parent address copied, entry cloned). -/
abbrev Heap := List Cell

/-- Well-formedness of one cell at its address: the parent was allocated
earlier.  Every cell `assoc` or the builder creates satisfies this, since
the parent always exists before the child is allocated. -/
def cellWF (i : Nat) : Cell → Bool
  | Cell.Map p _ => decide (p < i)
  | Cell.Empty => true

/-- Well-formedness of a heap: each cell only points to earlier cells. -/
def heapWF (h : Heap) : Bool :=
  (List.range h.length).all fun i => cellWF i (h.getD i Cell.Empty)

/-- Validity of an owned enum value over a heap: its parent address (if
any) points into the heap. -/
def cellValid (h : Heap) (c : Cell) : Bool :=
  cellWF h.length c

/-- Parent address stored in a cell, if the cell is a `Map` node. -/
def cellParent : Cell → Option Nat
  | Cell.Map p _ => some p
  | Cell.Empty => none

/-- Fuel-indexed dereferencing from address `a`, rebuilding the pure
value-level chain; out-of-range reads yield `Empty` (they never occur
along a well-formed chain), and on a well-formed heap fuel `a + 1` is
always enough because parent addresses strictly decrease. -/
def reifyF (h : Heap) : Nat → Nat → PersistentListMap
  | 0, _ => PersistentListMap.Empty
  | fuel + 1, a =>
    match h.getD a Cell.Empty with
    | Cell.Empty => PersistentListMap.Empty
    | Cell.Map p e => PersistentListMap.Map (reifyF h fuel p) e

/-- The pure chain denoted by the `Rc` address `a`. -/
def reify (h : Heap) (a : Nat) : PersistentListMap :=
  reifyF h (a + 1) a

/-- The pure chain denoted by an owned enum value over the heap. -/
def reifyCell (h : Heap) : Cell → PersistentListMap
  | Cell.Empty => PersistentListMap.Empty
  | Cell.Map p e => PersistentListMap.Map (reify h p) e

/-- Transcription of `IPersistentListMap::get` for `Rc<PersistentListMap>`
in the heap model: dereference the address and walk parent addresses,
with fuel bounding the recursion depth. -/
def getRcF (h : Heap) : Nat → Nat → Value → Value
  | 0, _, _ => Value.Nil
  | fuel + 1, a, key =>
    match h.getD a Cell.Empty with
    | Cell.Empty => Value.Nil
    | Cell.Map p e => if e.key = key then e.val else getRcF h fuel p key

/-- Lookup through an `Rc` address, with the fuel that suffices on
well-formed heaps. -/
def getRc (h : Heap) (a : Nat) (key : Value) : Value :=
  getRcF h (a + 1) a key

/-- Transcription of `IPersistentListMap::get` for the owned enum value:
the source's recursive call `parent.get(key)` is the `Rc` get. -/
def getCell (h : Heap) (c : Cell) (key : Value) : Value :=
  match c with
  | Cell.Empty => Value.Nil
  | Cell.Map p e => if e.key = key then e.val else getRc h p key

/-- Transcription of the owned `assoc`, `Map(Rc::new(self.clone()), entry)`:
`self.clone()` copies the input value shallowly and `Rc::new` allocates a
fresh cell for the copy; the result is the owned value whose parent is the
fresh address. -/
def assocCell (h : Heap) (c : Cell) (key val : Value) : Heap × Cell :=
  (h ++ [c], Cell.Map h.length (MapEntry.mk key val))

/-- Transcription of the `Rc` `assoc`, `Rc::new(Map(Rc::clone(self), entry))`:
one fresh cell whose parent address is the input address itself; the
result is the fresh address. -/
def assocRc (h : Heap) (a : Nat) (key val : Value) : Heap × Nat :=
  (h ++ [Cell.Map a (MapEntry.mk key val)], h.length)

/-- The C5 claim read at one call site: whether the head node produced by
`assoc` holds a parent reference to a node that was already allocated
before the call (as `m`'s existing head is), rather than to a fresh
copy. -/
def parentPreexisting (hlen : Nat) (c : Cell) : Bool :=
  match cellParent c with
  | some p => decide (p < hlen)
  | none => false

/-- Rendering of one entry, `format!("{} {}", key, val)` with the
string-conversion capability `ts` standing for `to_string_explicit`. -/
def pairStr (ts : Value → String) (e : MapEntry) : String :=
  ts e.key ++ " " ++ ts e.val

/-- Comma-space separation of rendered strings, reading the spec's
`"{k1 v1, k2 v2, ...}"` format description. -/
def sepByCommaSpace : List String → String
  | [] => ""
  | [s] => s
  | s :: rest => s ++ ", " ++ sepByCommaSpace rest

/-- Rendered pairs each preceded by a comma-space separator. -/
def commaSpaceJoin (ts : Value → String) : List MapEntry → String
  | [] => ""
  | e :: rest => ", " ++ pairStr ts e ++ commaSpaceJoin ts rest

/-- Transcription of the loop of `fmt::Display for PersistentListMap`:
the accumulator starts at `"{"`; each entry of the iterator's output
appends `", "` first unless the loop is in its first pass, and then the
rendered pair. -/
def fmtLoop (ts : Value → String) : List MapEntry → String → Bool → String
  | [], acc, _ => acc
  | e :: rest, acc, firstLoop =>
    fmtLoop ts rest
      ((if firstLoop then acc else acc ++ ", ") ++ (ts e.key ++ " " ++ ts e.val)) false

/-- Modelled from the spec at the boundary: `Value::to_string_explicit`
lives in `value.rs`, outside the given sources, so the renderer takes the
string-conversion capability as the parameter `ts`.  Transcription of
`fmt::Display for PersistentListMap`: run the loop over the iterator's
output and close the brace. -/
def fmtDisplay (ts : Value → String) (m : PersistentListMap) : String :=
  fmtLoop ts m.toList "\x7b" true ++ "\x7d"

/-- Most-recent-wins, stated directly over the pure model. -/
theorem shadowing_most_recent_wins (m : PersistentListMap) (k v₁ v₂ : Value) :
    ((m.assoc k v₁).assoc k v₂).get k = v₂ := by
  simp [PersistentListMap.assoc, PersistentListMap.get]

/-- First-match semantics: a head entry with the looked-up key is returned
without examining the parent chain. -/
theorem get_head_match (m : PersistentListMap) (k v : Value) :
    (PersistentListMap.Map m (MapEntry.mk k v)).get k = v := by
  simp [PersistentListMap.get]

/-- Lookup misses every node whose key is absent from the chain. -/
theorem get_of_not_keyOccurs (m : PersistentListMap) (k : Value)
    (h : m.keyOccurs k = false) : m.get k = Value.Nil := by
  induction m with
  | Map parent entry ih =>
    simp only [PersistentListMap.keyOccurs, Bool.or_eq_false_iff,
      decide_eq_false_iff_not] at h
    simp [PersistentListMap.get, h.1, ih h.2]
  | Empty => rfl

namespace PersistentListMap

/-- Keys already in the seen set are never yielded by the iterator. -/
theorem iterGo_key_not_mem (m : PersistentListMap) (seen : List Value) (k : Value)
    (hk : k ∈ seen) : k ∉ (iterGo m seen).map MapEntry.key := by
  induction m generalizing seen with
  | Map parent entry ih =>
    by_cases h : entry.key ∈ seen
    · simpa [iterGo, h] using ih seen hk
    · have hmem : k ∈ entry.key :: seen := List.mem_cons_of_mem _ hk
      have hne : ¬ k = entry.key := fun he => h (he ▸ hk)
      have h2 := ih (entry.key :: seen) hmem
      rw [iterGo, if_neg h, List.map_cons]
      intro hcon
      rcases List.mem_cons.mp hcon with h3 | h3
      · exact hne h3
      · exact h2 h3
  | Empty => simp [iterGo]

/-- The iterator never yields the same key twice. -/
theorem iterGo_keys_nodup (m : PersistentListMap) (seen : List Value) :
    ((iterGo m seen).map MapEntry.key).Nodup := by
  induction m generalizing seen with
  | Map parent entry ih =>
    by_cases h : entry.key ∈ seen
    · simpa [iterGo, h] using ih seen
    · have h1 := iterGo_key_not_mem parent (entry.key :: seen) entry.key
        (List.mem_cons_self _ _)
      rw [iterGo, if_neg h, List.map_cons]
      exact List.nodup_cons.mpr ⟨h1, ih (entry.key :: seen)⟩
  | Empty => simp [iterGo]

theorem filter_key_eq_nil {l : List MapEntry} {k : Value}
    (h : k ∉ l.map MapEntry.key) :
    l.filter (fun e => decide (e.key = k)) = [] := by
  induction l with
  | nil => rfl
  | cons e rest ih =>
    simp only [List.map_cons, List.mem_cons, not_or] at h
    have hne : ¬ e.key = k := fun he => h.1 he.symm
    simp [List.filter_cons, hne, ih h.2]

/-- If `k` is not yet seen and `get` finds a value for it, the iterator
yields exactly one entry with key `k`, carrying exactly that value. -/
theorem iterGo_filter_eq (m : PersistentListMap) (seen : List Value) (k : Value)
    (hk : k ∉ seen) (hget : m.get k ≠ Value.Nil) :
    (iterGo m seen).filter (fun e => decide (e.key = k)) = [MapEntry.mk k (m.get k)] := by
  induction m generalizing seen with
  | Map parent entry ih =>
    obtain ⟨ekey, eval⟩ := entry
    by_cases he : ekey = k
    · subst he
      have hrest : (iterGo parent (ekey :: seen)).filter
          (fun e => decide (e.key = ekey)) = [] :=
        filter_key_eq_nil
          (iterGo_key_not_mem parent (ekey :: seen) ekey (List.mem_cons_self _ _))
      rw [iterGo, if_neg hk, List.filter_cons]
      simp [hrest, get]
    · have hget' : parent.get k ≠ Value.Nil := by
        simpa [get, he] using hget
      have hgeteq : (Map parent (MapEntry.mk ekey eval)).get k = parent.get k := by
        simp [get, he]
      rw [hgeteq]
      by_cases hs : ekey ∈ seen
      · rw [iterGo, if_pos hs]
        exact ih seen hk hget'
      · have hk' : k ∉ ekey :: seen := by
          intro hcon
          rcases List.mem_cons.mp hcon with h3 | h3
          · exact he h3.symm
          · exact hk h3
        rw [iterGo, if_neg hs, List.filter_cons]
        have hne : ¬ (MapEntry.mk ekey eval).key = k := he
        simp only [hne, decide_False]
        exact ih (ekey :: seen) hk' hget'
  | Empty => simp [get] at hget

/-- Every `next` call that returns an entry strictly shrinks the remaining
chain, no matter how many shadowed entries it skips on the way. -/
theorem iterNext_size_lt (m : PersistentListMap) (seen : List Value)
    (e : MapEntry) (m' : PersistentListMap) (seen' : List Value)
    (h : iterNext m seen = some (e, m', seen')) : m'.size < m.size := by
  induction m generalizing seen with
  | Map parent entry ih =>
    by_cases hs : entry.key ∈ seen
    · have := ih seen (by simpa [iterNext, hs] using h)
      simp only [size]; omega
    · simp only [iterNext, hs, if_false, Option.some.injEq, Prod.mk.injEq] at h
      obtain ⟨-, hm', -⟩ := h
      simp [← hm', size]
  | Empty => simp [iterNext] at h

/-- With a budget of `size m` calls, repeated `next` exhausts the iterator
and produces exactly the chain's iteration sequence. -/
theorem runIter_eq_iterGo (m : PersistentListMap) (seen : List Value) (fuel : Nat)
    (hf : m.size ≤ fuel) : runIter fuel m seen = iterGo m seen := by
  induction m generalizing seen fuel with
  | Map parent entry ih =>
    obtain ⟨f, rfl⟩ : ∃ f, fuel = f + 1 := by
      cases fuel with
      | zero => simp [size] at hf
      | succ f => exact ⟨f, rfl⟩
    have hf' : parent.size ≤ f := by simp only [size] at hf; omega
    by_cases hs : entry.key ∈ seen
    · have : runIter (f + 1) (Map parent entry) seen = runIter (f + 1) parent seen := by
        simp [runIter, iterNext, hs]
      rw [this, ih seen (f + 1) (Nat.le_succ_of_le hf')]
      simp [iterGo, hs]
    · simp [runIter, iterNext, hs, iterGo, ih (entry.key :: seen) f hf']
  | Empty =>
    cases fuel with
    | zero => rfl
    | succ f => simp [runIter, iterNext, iterGo]

end PersistentListMap

/-- Claim C3: each distinct key is yielded at most once; for every key
whose lookup is not the absent sentinel, exactly one yielded entry carries
that key, with exactly the value `get` returns. -/
theorem iteration_complete_nodup (m : PersistentListMap) :
    ((m.toList).map MapEntry.key).Nodup ∧
    ∀ k, m.get k ≠ Value.Nil →
      (m.toList).filter (fun e => decide (e.key = k)) = [MapEntry.mk k (m.get k)] :=
  ⟨PersistentListMap.iterGo_keys_nodup m [],
   fun k hget => PersistentListMap.iterGo_filter_eq m [] k (List.not_mem_nil k) hget⟩

/-- Witness for C3 on a concrete two-entry map with a shadowed key. -/
theorem iteration_complete_nodup_witness :
    (((PersistentListMap.fromList
        [MapEntry.mk symA (Value.I32 1), MapEntry.mk symA (Value.I32 2)]).toList).filter
      (fun e => decide (e.key = symA)) =
      [MapEntry.mk symA (Value.I32 2)]) := by
  have h := (iteration_complete_nodup
      (PersistentListMap.fromList
        [MapEntry.mk symA (Value.I32 1), MapEntry.mk symA (Value.I32 2)])).2
      symA (by decide)
  simpa using h

/-- Claim C9: iteration terminates: a budget of `size m` next-calls fully
drains the iterator into the (finite) iteration sequence, and every
successful next-call strictly decreases the remaining chain even while
skipping consecutive shadowed entries. -/
theorem iteration_terminates :
    (∀ m : PersistentListMap, PersistentListMap.runIter m.size m [] = m.toList) ∧
    (∀ (m : PersistentListMap) (seen : List Value) e m' seen',
      PersistentListMap.iterNext m seen = some (e, m', seen') → m'.size < m.size) :=
  ⟨fun m => PersistentListMap.runIter_eq_iterGo m [] m.size (Nat.le_refl _),
   fun m seen e m' seen' h => PersistentListMap.iterNext_size_lt m seen e m' seen' h⟩

/-- Witness for C9: a chain whose head entry is shadowed still makes
strict progress on a single next-call. -/
theorem iteration_terminates_witness :
    PersistentListMap.runIter 2 (PersistentListMap.fromList
      [MapEntry.mk symA (Value.I32 1), MapEntry.mk symA (Value.I32 2)]) [] =
      (PersistentListMap.fromList
        [MapEntry.mk symA (Value.I32 1), MapEntry.mk symA (Value.I32 2)]).toList ∧
    (PersistentListMap.Empty : PersistentListMap).size <
      (PersistentListMap.fromList [MapEntry.mk symA (Value.I32 1)]).size := by
  constructor
  · exact iteration_terminates.1 (PersistentListMap.fromList
      [MapEntry.mk symA (Value.I32 1), MapEntry.mk symA (Value.I32 2)])
  · exact iteration_terminates.2 (PersistentListMap.fromList
      [MapEntry.mk symA (Value.I32 1)]) [] (MapEntry.mk symA (Value.I32 1))
      PersistentListMap.Empty [symA] (by decide)

namespace PersistentListMap

/-- Chains with identical full node sequences are identical. -/
theorem entries_inj (x y : PersistentListMap) (h : x.entries = y.entries) : x = y := by
  induction x generalizing y with
  | Map parent entry ih =>
    cases y with
    | Map yparent yentry =>
      simp only [entries, List.cons.injEq] at h
      rw [h.1, ih yparent h.2]
    | Empty => simp [entries] at h
  | Empty =>
    cases y with
    | Map yparent yentry => simp [entries] at h
    | Empty => rfl

/-- Lookup only depends on the accumulator through its own lookup when the
builder keeps folding entries on top of it. -/
theorem get_foldl_congr (l : List MapEntry) (acc₁ acc₂ : PersistentListMap) (k : Value)
    (h : acc₁.get k = acc₂.get k) :
    (l.foldl (fun acc e => Map acc e) acc₁).get k =
    (l.foldl (fun acc e => Map acc e) acc₂).get k := by
  induction l generalizing acc₁ acc₂ with
  | nil => exact h
  | cons e rest ih =>
    simp only [List.foldl_cons]
    exact ih (Map acc₁ e) (Map acc₂ e) (by simp [get, h])

end PersistentListMap

/-- Claim C2: the most recent binding of a key wins, and `get` stops at the
first (head-nearest) matching entry without examining the rest of the
chain. -/
theorem shadowing_claim :
    (∀ (m : PersistentListMap) (k v₁ v₂ : Value),
      ((m.assoc k v₁).assoc k v₂).get k = v₂) ∧
    (∀ (m : PersistentListMap) (k v : Value),
      (PersistentListMap.Map m (MapEntry.mk k v)).get k = v) :=
  ⟨shadowing_most_recent_wins, get_head_match⟩

/-- Claim C6: lookup in the empty map is the `Nil` sentinel for every key,
and lookup of a key occurring in no entry of any chain is the `Nil`
sentinel rather than an error. -/
theorem absent_key_sentinel :
    (∀ k, PersistentListMap.Empty.get k = Value.Nil) ∧
    (∀ (m : PersistentListMap) (k : Value),
      m.keyOccurs k = false → m.get k = Value.Nil) :=
  ⟨fun _ => rfl, get_of_not_keyOccurs⟩

/-- Witness for C6 on a concrete one-entry map and a key it lacks. -/
theorem absent_key_sentinel_witness :
    PersistentListMap.Empty.get symB = Value.Nil ∧
    (PersistentListMap.fromList [MapEntry.mk symA (Value.I32 1)]).keyOccurs symB = false ∧
    (PersistentListMap.fromList [MapEntry.mk symA (Value.I32 1)]).get symB = Value.Nil :=
  ⟨absent_key_sentinel.1 symB, by decide,
   absent_key_sentinel.2 (PersistentListMap.fromList [MapEntry.mk symA (Value.I32 1)])
     symB (by decide)⟩

/-- Claim C4: building from a sequence is the same map as folding `assoc`
left to right from the empty map, and an entry later in the sequence
shadows every earlier entry with the same key. -/
theorem builder_assoc_equiv :
    (∀ l : List MapEntry,
      PersistentListMap.fromList l =
        l.foldl (fun m e => m.assoc e.key e.val) PersistentListMap.Empty) ∧
    (∀ (l₁ l₂ : List MapEntry) (k v : Value),
      (PersistentListMap.fromList (l₁ ++ MapEntry.mk k v :: l₂)).get k =
        (PersistentListMap.fromList (MapEntry.mk k v :: l₂)).get k) := by
  constructor
  · intro l
    have hfun : (fun (m : PersistentListMap) (e : MapEntry) => m.assoc e.key e.val) =
        fun acc e => PersistentListMap.Map acc e := by
      funext m e
      cases e
      rfl
    rw [hfun]
    rfl
  · intro l₁ l₂ k v
    have h1 : PersistentListMap.fromList (l₁ ++ MapEntry.mk k v :: l₂) =
        l₂.foldl (fun acc e => PersistentListMap.Map acc e)
          (PersistentListMap.Map (PersistentListMap.fromList l₁) (MapEntry.mk k v)) := by
      simp [PersistentListMap.fromList, List.foldl_append]
    have h2 : PersistentListMap.fromList (MapEntry.mk k v :: l₂) =
        l₂.foldl (fun acc e => PersistentListMap.Map acc e)
          (PersistentListMap.Map PersistentListMap.Empty (MapEntry.mk k v)) := rfl
    rw [h1, h2]
    exact PersistentListMap.get_foldl_congr l₂ _ _ k (by simp [PersistentListMap.get])

/-- Claim C7: derived structural equality compares the full node sequence
down to `Empty`, shadowed duplicates included, and is strictly stronger
than agreement of `get`: the concrete maps built from `[(a,1),(a,2)]` and
`[(a,2)]` both look up `a` to `2` yet are structurally unequal. -/
theorem structural_eq_stricter :
    (∀ x y : PersistentListMap, x = y ↔ x.entries = y.entries) ∧
    (PersistentListMap.fromList
        [MapEntry.mk symA (Value.I32 1), MapEntry.mk symA (Value.I32 2)]).get symA =
      Value.I32 2 ∧
    (PersistentListMap.fromList [MapEntry.mk symA (Value.I32 2)]).get symA = Value.I32 2 ∧
    PersistentListMap.fromList
        [MapEntry.mk symA (Value.I32 1), MapEntry.mk symA (Value.I32 2)] ≠
      PersistentListMap.fromList [MapEntry.mk symA (Value.I32 2)] :=
  ⟨fun x y => ⟨fun h => h ▸ rfl, PersistentListMap.entries_inj x y⟩,
   by decide, by decide, by decide⟩

/-- Well-formed heaps only store parent addresses smaller than the cell's
own address. -/
theorem heapWF_spec {h : Heap} (hwf : heapWF h = true) {i p : Nat} {e : MapEntry}
    (hc : h.getD i Cell.Empty = Cell.Map p e) : p < i := by
  by_cases hi : i < h.length
  · have hall := List.all_eq_true.mp hwf i (List.mem_range.mpr hi)
    rw [hc] at hall
    exact of_decide_eq_true hall
  · rw [List.getD_eq_default h Cell.Empty (Nat.le_of_not_lt hi)] at hc
    cases hc

/-- Reading the freshly appended cell back. -/
theorem getD_append_last (h : Heap) (c : Cell) :
    (h ++ [c]).getD h.length Cell.Empty = c := by
  rw [List.getD_append_right h [c] Cell.Empty h.length (Nat.le_refl _), Nat.sub_self]
  rfl

/-- Appending one cell that respects its address keeps the heap
well-formed. -/
theorem heapWF_append {h : Heap} {c : Cell} (hwf : heapWF h = true)
    (hc : cellWF h.length c = true) : heapWF (h ++ [c]) = true := by
  rw [heapWF, List.all_eq_true]
  intro i hi
  rw [List.mem_range, List.length_append, List.length_cons, List.length_nil] at hi
  by_cases hlt : i < h.length
  · rw [List.getD_append h [c] Cell.Empty i hlt]
    exact List.all_eq_true.mp hwf i (List.mem_range.mpr hlt)
  · have hieq : i = h.length := by omega
    rw [hieq, getD_append_last h c]
    exact hc

/-- Heap lookup through `Rc` is lookup on the reified pure chain, at every
fuel. -/
theorem getRcF_eq_get_reifyF (h : Heap) :
    ∀ (fuel a : Nat) (key : Value),
      getRcF h fuel a key = (reifyF h fuel a).get key := by
  intro fuel
  induction fuel with
  | zero => intro a key; rfl
  | succ f ih =>
    intro a key
    simp only [getRcF, reifyF]
    cases h.getD a Cell.Empty with
    | Map p e => simp [PersistentListMap.get, ih]
    | Empty => rfl

/-- On a well-formed heap, any fuel beyond the starting address
dereferences the same chain. -/
theorem reifyF_fuel {h : Heap} (hwf : heapWF h = true) :
    ∀ (a f₁ f₂ : Nat), a < f₁ → a < f₂ → reifyF h f₁ a = reifyF h f₂ a := by
  intro a
  induction a using Nat.strong_induction_on with
  | _ a ih =>
    intro f₁ f₂ h₁ h₂
    obtain ⟨g₁, rfl⟩ : ∃ g, f₁ = g + 1 := ⟨f₁ - 1, by omega⟩
    obtain ⟨g₂, rfl⟩ : ∃ g, f₂ = g + 1 := ⟨f₂ - 1, by omega⟩
    simp only [reifyF]
    cases hc : h.getD a Cell.Empty with
    | Map p e =>
      have hp : p < a := heapWF_spec hwf hc
      show (reifyF h g₁ p).Map e = (reifyF h g₂ p).Map e
      rw [ih p hp g₁ g₂ (by omega) (by omega)]
    | Empty => rfl

/-- Allocating new cells never changes the chain denoted by an existing
address of a well-formed heap. -/
theorem reifyF_append {h : Heap} (t : Heap) (hwf : heapWF h = true) :
    ∀ (fuel a : Nat), a < h.length → reifyF (h ++ t) fuel a = reifyF h fuel a := by
  intro fuel
  induction fuel with
  | zero => intro a _; rfl
  | succ f ih =>
    intro a ha
    simp only [reifyF]
    rw [List.getD_append h t Cell.Empty a ha]
    cases hc : h.getD a Cell.Empty with
    | Map p e =>
      have hp : p < a := heapWF_spec hwf hc
      show (reifyF (h ++ t) f p).Map e = (reifyF h f p).Map e
      rw [ih p (by omega)]
    | Empty => rfl

/-- Dereferencing an address is reifying the cell stored there. -/
theorem reify_eq_reifyCell {h : Heap} (hwf : heapWF h = true) (a : Nat) :
    reify h a = reifyCell h (h.getD a Cell.Empty) := by
  rw [reify]
  simp only [reifyF]
  cases hc : h.getD a Cell.Empty with
  | Map p e =>
    have hp : p < a := heapWF_spec hwf hc
    show (reifyF h a p).Map e = (reify h p).Map e
    rw [reify, reifyF_fuel hwf p a (p + 1) hp (Nat.lt_succ_self p)]
  | Empty => rfl

/-- Owned-value lookup is lookup on the reified pure chain. -/
theorem getCell_eq_get_reifyCell (h : Heap) (c : Cell) (key : Value) :
    getCell h c key = (reifyCell h c).get key := by
  cases c with
  | Map p e =>
    simp only [getCell, reifyCell, PersistentListMap.get, getRc, reify,
      getRcF_eq_get_reifyF]
  | Empty => rfl

/-- Heap lookup through an `Rc` address is lookup on the reified chain. -/
theorem getRc_eq_get_reify (h : Heap) (a : Nat) (key : Value) :
    getRc h a key = (reify h a).get key :=
  getRcF_eq_get_reifyF h (a + 1) a key

/-- Allocating new cells does not change the chain denoted by an owned
value that is valid over the original heap. -/
theorem reifyCell_append {h : Heap} (t : Heap) (hwf : heapWF h = true) {c : Cell}
    (hc : cellValid h c = true) : reifyCell (h ++ t) c = reifyCell h c := by
  cases c with
  | Map p e =>
    have hp : p < h.length := by
      simpa [cellValid, cellWF] using hc
    show (reify (h ++ t) p).Map e = (reify h p).Map e
    rw [reify, reify, reifyF_append t hwf (p + 1) p hp]
  | Empty => rfl

/-- The fresh head allocated by the `Rc` `assoc` reifies to a node over
exactly the reified input chain. -/
theorem reify_assocRc {h : Heap} (hwf : heapWF h = true) {a : Nat} (ha : a < h.length)
    (k v : Value) :
    reify (h ++ [Cell.Map a (MapEntry.mk k v)]) h.length =
      PersistentListMap.Map (reify h a) (MapEntry.mk k v) := by
  have hwf' : heapWF (h ++ [Cell.Map a (MapEntry.mk k v)]) = true :=
    heapWF_append hwf (by simp [cellWF, ha])
  rw [reify]
  simp only [reifyF]
  rw [getD_append_last]
  show (reifyF (h ++ [Cell.Map a (MapEntry.mk k v)]) h.length a).Map (MapEntry.mk k v) = _
  rw [reifyF_fuel hwf' a h.length (a + 1) ha (Nat.lt_succ_self a),
    reifyF_append [Cell.Map a (MapEntry.mk k v)] hwf (a + 1) a ha]
  rfl

/-- Claim C1: persistence of insert — over any well-formed heap, after
either `assoc` the original map (an `Rc` address `a`, or an owned value
`c`) looks every key `k'`, including the inserted key, up to the same
value as before the call. -/
theorem assoc_preserves_get (h : Heap) (hwf : heapWF h = true) :
    (∀ (a : Nat) (k v k' : Value), a < h.length →
      getRc (assocRc h a k v).1 a k' = getRc h a k') ∧
    (∀ (c : Cell) (k v k' : Value), cellValid h c = true →
      getCell (assocCell h c k v).1 c k' = getCell h c k') := by
  constructor
  · intro a k v k' ha
    show getRc (h ++ [Cell.Map a (MapEntry.mk k v)]) a k' = getRc h a k'
    rw [getRc_eq_get_reify, getRc_eq_get_reify, reify, reify,
      reifyF_append [Cell.Map a (MapEntry.mk k v)] hwf (a + 1) a ha]
  · intro c k v k' hc
    show getCell (h ++ [c]) c k' = getCell h c k'
    rw [getCell_eq_get_reifyCell, getCell_eq_get_reifyCell,
      reifyCell_append [c] hwf hc]

/-- Witness for C1: the concrete map `{a 15}` (as an `Rc` chain, and as an
owned head `{b "stuff"}` over it) is unchanged by an `assoc`. -/
theorem assoc_preserves_get_witness :
    heapWF [Cell.Empty, Cell.Map 0 (MapEntry.mk symA (Value.I32 15))] = true ∧
    getRc (assocRc [Cell.Empty, Cell.Map 0 (MapEntry.mk symA (Value.I32 15))]
        1 symC (Value.I32 100)).1 1 symC =
      getRc [Cell.Empty, Cell.Map 0 (MapEntry.mk symA (Value.I32 15))] 1 symC ∧
    getCell (assocCell [Cell.Empty, Cell.Map 0 (MapEntry.mk symA (Value.I32 15))]
        (Cell.Map 1 (MapEntry.mk symB (Value.Str "stuff"))) symA (Value.I32 100)).1
        (Cell.Map 1 (MapEntry.mk symB (Value.Str "stuff"))) symA =
      getCell [Cell.Empty, Cell.Map 0 (MapEntry.mk symA (Value.I32 15))]
        (Cell.Map 1 (MapEntry.mk symB (Value.Str "stuff"))) symA :=
  ⟨by decide,
   (assoc_preserves_get [Cell.Empty, Cell.Map 0 (MapEntry.mk symA (Value.I32 15))]
     (by decide)).1 1 symC (Value.I32 100) symC (by decide),
   (assoc_preserves_get [Cell.Empty, Cell.Map 0 (MapEntry.mk symA (Value.I32 15))]
     (by decide)).2 (Cell.Map 1 (MapEntry.mk symB (Value.Str "stuff")))
     symA (Value.I32 100) symA (by decide)⟩

/-- Counterexample to claim C5: the owned `assoc` (`Rc::new(self.clone())`) does
not link the produced head to the input map's existing head: on the
concrete owned map `{a 1}` over a one-cell heap, the produced head's
parent is the freshly allocated address 1 — beyond every pre-call
allocation — and the cell there is merely a value-equal shallow copy of
the input head. -/
theorem owned_assoc_parent_is_copy :
    parentPreexisting ([Cell.Empty] : Heap).length
        (assocCell [Cell.Empty] (Cell.Map 0 (MapEntry.mk symA (Value.I32 1)))
          symB (Value.I32 2)).2 = false ∧
    cellParent (assocCell [Cell.Empty] (Cell.Map 0 (MapEntry.mk symA (Value.I32 1)))
        symB (Value.I32 2)).2 = some ([Cell.Empty] : Heap).length ∧
    (assocCell [Cell.Empty] (Cell.Map 0 (MapEntry.mk symA (Value.I32 1)))
        symB (Value.I32 2)).1.getD ([Cell.Empty] : Heap).length Cell.Empty =
      Cell.Map 0 (MapEntry.mk symA (Value.I32 1)) := by
  refine ⟨by decide, by decide, by decide⟩

/-- Amended claim C5: the `Rc`-handle `assoc` shares structure by
reference: its single fresh cell's parent address is exactly the input
address `a` (the same shared reference), every pre-existing cell is left
unchanged, and the result reifies to a new node over exactly the reified
input chain.  The owned-value `assoc` (`Rc::new(self.clone())`) instead
points the produced head at a freshly allocated shallow copy of the input
head, so the by-reference sharing starts at the input's parent link
rather than at its head node. -/
theorem assoc_structural_sharing (h : Heap) (a : Nat) (c : Cell) (k v : Value)
    (hwf : heapWF h = true) (ha : a < h.length) :
    cellParent ((assocRc h a k v).1.getD (assocRc h a k v).2 Cell.Empty) = some a ∧
    (∀ i, i < h.length → (assocRc h a k v).1.getD i Cell.Empty = h.getD i Cell.Empty) ∧
    reify (assocRc h a k v).1 (assocRc h a k v).2 =
      PersistentListMap.Map (reify h a) (MapEntry.mk k v) ∧
    cellParent (assocCell h c k v).2 = some h.length ∧
    parentPreexisting h.length (assocCell h c k v).2 = false ∧
    (assocCell h c k v).1.getD h.length Cell.Empty = c := by
  refine ⟨?_, ?_, ?_, rfl, ?_, ?_⟩
  · show cellParent ((h ++ [Cell.Map a (MapEntry.mk k v)]).getD h.length Cell.Empty) =
      some a
    rw [getD_append_last]
    rfl
  · intro i hi
    exact List.getD_append h _ Cell.Empty i hi
  · exact reify_assocRc hwf ha k v
  · show parentPreexisting h.length (Cell.Map h.length (MapEntry.mk k v)) = false
    simp [parentPreexisting, cellParent]
  · exact getD_append_last h c

/-- Witness for the amended C5 on a one-cell heap. -/
theorem assoc_structural_sharing_witness :
    heapWF [Cell.Empty] = true ∧
    reify (assocRc [Cell.Empty] 0 symA (Value.I32 1)).1
        (assocRc [Cell.Empty] 0 symA (Value.I32 1)).2 =
      PersistentListMap.Map (reify [Cell.Empty] 0) (MapEntry.mk symA (Value.I32 1)) :=
  ⟨by decide,
   (assoc_structural_sharing [Cell.Empty] 0 Cell.Empty symA (Value.I32 1)
     (by decide) (by decide)).2.2.1⟩

/-- Claim C10: the two parallel API surfaces agree: owned `get` on the
cell stored at an address returns the same value as `Rc` `get` on that
address, and the maps produced by the owned and the `Rc` `assoc` over the
same chain are structurally equal — their reified chains (what the
derived `PartialEq` compares) are identical. -/
theorem api_surfaces_agree (h : Heap) (hwf : heapWF h = true) :
    (∀ (a : Nat) (k : Value), getCell h (h.getD a Cell.Empty) k = getRc h a k) ∧
    (∀ (a : Nat) (k v : Value), a < h.length →
      reifyCell (assocCell h (h.getD a Cell.Empty) k v).1
          (assocCell h (h.getD a Cell.Empty) k v).2 =
        reify (assocRc h a k v).1 (assocRc h a k v).2) := by
  constructor
  · intro a k
    rw [getCell_eq_get_reifyCell, getRc_eq_get_reify, ← reify_eq_reifyCell hwf a]
  · intro a k v ha
    have hvalid : cellValid h (h.getD a Cell.Empty) = true := by
      cases hc : h.getD a Cell.Empty with
      | Map p e =>
        have hp : p < a := heapWF_spec hwf hc
        simp only [cellValid, cellWF, decide_eq_true_eq]
        omega
      | Empty => rfl
    have hwf' : heapWF (h ++ [h.getD a Cell.Empty]) = true := heapWF_append hwf hvalid
    show reifyCell (h ++ [h.getD a Cell.Empty])
        (Cell.Map h.length (MapEntry.mk k v)) = _
    have h1 : reifyCell (h ++ [h.getD a Cell.Empty])
        (Cell.Map h.length (MapEntry.mk k v)) =
        PersistentListMap.Map (reify (h ++ [h.getD a Cell.Empty]) h.length)
          (MapEntry.mk k v) := rfl
    rw [h1, reify_eq_reifyCell hwf' h.length, getD_append_last,
      reifyCell_append [h.getD a Cell.Empty] hwf hvalid, ← reify_eq_reifyCell hwf a]
    exact (reify_assocRc hwf ha k v).symm

/-- Witness for C10 on the concrete chain `{a 1}` at address 1. -/
theorem api_surfaces_agree_witness :
    heapWF [Cell.Empty, Cell.Map 0 (MapEntry.mk symA (Value.I32 1))] = true ∧
    getCell [Cell.Empty, Cell.Map 0 (MapEntry.mk symA (Value.I32 1))]
        ([Cell.Empty, Cell.Map 0 (MapEntry.mk symA (Value.I32 1))].getD 1 Cell.Empty)
        symA =
      getRc [Cell.Empty, Cell.Map 0 (MapEntry.mk symA (Value.I32 1))] 1 symA ∧
    reifyCell (assocCell [Cell.Empty, Cell.Map 0 (MapEntry.mk symA (Value.I32 1))]
          ([Cell.Empty, Cell.Map 0 (MapEntry.mk symA (Value.I32 1))].getD 1 Cell.Empty)
          symB (Value.I32 2)).1
        (assocCell [Cell.Empty, Cell.Map 0 (MapEntry.mk symA (Value.I32 1))]
          ([Cell.Empty, Cell.Map 0 (MapEntry.mk symA (Value.I32 1))].getD 1 Cell.Empty)
          symB (Value.I32 2)).2 =
      reify (assocRc [Cell.Empty, Cell.Map 0 (MapEntry.mk symA (Value.I32 1))]
          1 symB (Value.I32 2)).1
        (assocRc [Cell.Empty, Cell.Map 0 (MapEntry.mk symA (Value.I32 1))]
          1 symB (Value.I32 2)).2 :=
  ⟨by decide,
   (api_surfaces_agree [Cell.Empty, Cell.Map 0 (MapEntry.mk symA (Value.I32 1))]
     (by decide)).1 1 symA,
   (api_surfaces_agree [Cell.Empty, Cell.Map 0 (MapEntry.mk symA (Value.I32 1))]
     (by decide)).2 1 symB (Value.I32 2) (by decide)⟩

/-- Every non-first pass of the render loop appends a comma-space and the
rendered pair. -/
theorem fmtLoop_false (ts : Value → String) :
    ∀ (l : List MapEntry) (acc : String),
      fmtLoop ts l acc false = acc ++ commaSpaceJoin ts l := by
  intro l
  induction l with
  | nil => intro acc; rw [fmtLoop, commaSpaceJoin, String.append_empty]
  | cons e rest ih =>
    intro acc
    rw [fmtLoop, if_neg (by simp), ih, commaSpaceJoin, pairStr]
    simp [String.append_assoc]

/-- Comma-space separation of a nonempty rendered list is the head pair
followed by comma-space prefixed pairs. -/
theorem sepByCommaSpace_cons (ts : Value → String) :
    ∀ (l : List MapEntry) (e : MapEntry),
      sepByCommaSpace (pairStr ts e :: l.map (pairStr ts)) =
        pairStr ts e ++ commaSpaceJoin ts l := by
  intro l
  induction l with
  | nil => intro e; rw [List.map_nil, sepByCommaSpace, commaSpaceJoin, String.append_empty]
  | cons e' rest ih =>
    intro e
    rw [List.map_cons, sepByCommaSpace]
    · rw [ih e', commaSpaceJoin]
      simp [String.append_assoc]
    · simp

/-- Claim C8: rendering produces `"{"`, then exactly the iterator's output
(visible entries only, iteration order), each pair rendered as the
converted key, a space and the converted value, separated by comma-space,
then `"}"`; the empty map renders as `"{}"`. -/
theorem display_matches_iter :
    (∀ (ts : Value → String) (m : PersistentListMap),
      fmtDisplay ts m =
        "\x7b" ++ sepByCommaSpace ((m.toList).map (pairStr ts)) ++ "\x7d") ∧
    (∀ ts : Value → String, fmtDisplay ts PersistentListMap.Empty = "\x7b\x7d") := by
  have hmain : ∀ (ts : Value → String) (l : List MapEntry),
      fmtLoop ts l "\x7b" true = "\x7b" ++ sepByCommaSpace (l.map (pairStr ts)) := by
    intro ts l
    cases l with
    | nil => rw [fmtLoop, List.map_nil, sepByCommaSpace, String.append_empty]
    | cons e rest =>
      rw [fmtLoop, if_pos rfl, fmtLoop_false, List.map_cons, sepByCommaSpace_cons]
      show "\x7b" ++ pairStr ts e ++ commaSpaceJoin ts rest = _
      simp [String.append_assoc]
  constructor
  · intro ts m
    rw [fmtDisplay, hmain]
  · intro ts
    rfl
